import Mathlib

/-
Shallow embedding of the rsky-relay ingest/validate/publish core:
  src/rsky-relay/src/validator/manager.rs   (validator manager, non-labeler build)
  src/rsky-relay/src/validator/resolver.rs  (identity resolver)
  src/rsky-relay/src/publisher/worker.rs    (publisher worker)
External primitives (CBOR event parsing, signature verification, the sqlite
mirror, percent decoding, HTTP response bodies) are oracle functions collected
in an `Env` record; raw bytes are opaque `Nat` handles interpreted only through
those oracles.  Real time (`Instant::now()`) is threaded as an explicit `now`
argument.
-/

/-- The tag of a `SubscribeReposEvent` variant (Commit, Sync, Identity, Account,
Handle, Migrate, Tombstone, Info). -/
inductive SubKind
  | commit | sync | identity | account | handle | migrate | tombstone | info
  deriving DecidableEq, Repr

/-- The commit descriptor returned by `SubscribeReposEvent::commit()`: the
revision string `rev`, the content root CID `data` (opaque), and the repo DID
the commit names. -/
structure CommitInfo where
  rev : String
  data : Nat
  did : String
  deriving DecidableEq, Repr

/-- Result of `event.commit()`: decode error, `Ok(None)` (non-commit event), or
`Ok(Some((commit, head)))` with the commit-root CID `head` (opaque). -/
inductive CommitRes
  | err
  | noCommit
  | commitOf (c : CommitInfo) (head : Nat)
  deriving DecidableEq, Repr

/-- A parsed `SubscribeReposEvent`, carrying the results of its pure accessor
methods (`type_`, `seq`, `time`, `did`, `commit`, `validate`) as fields. -/
structure Event where
  kind : SubKind
  seq : Nat
  time : Int
  did : String
  commitRes : CommitRes
  validates : Bool
  deriving DecidableEq, Repr

/-- The per-DID repo head state `RepoState { rev, data, head }`. -/
structure RepoState where
  rev : String
  data : Nat
  head : Nat
  deriving DecidableEq, Repr

/-- A resolved DID binding: optional PDS endpoint hostname and the (opaque,
fixed-size) public key, the value type of the resolver cache. -/
structure DidValue where
  endpoint : Option String
  key : Nat
  deriving DecidableEq, Repr

/-- One row of a PLC export batch (`PlcDocument`); `operation` is an opaque
handle for the raw JSON operation. -/
structure PlcDoc where
  cid : String
  did : String
  created_at : String
  nullified : Bool
  operation : Nat
  deriving DecidableEq, Repr

/-- The tag the resolver attaches to an outstanding HTTP fetch (`enum Query`):
a DID-document fetch carrying the query string (the decoded did:web host or
the plc id), or a PLC-export fetch carrying the `after` cursor it used. -/
inductive Query
  | did (q : String)
  | plcExport (after : String)
  deriving DecidableEq, Repr

/-- The oracle environment: configuration knobs and the external primitives the
core calls but does not define. -/
structure Env where
  cap : Nat
  doPlcExport : Bool
  plcInterval : Nat
  mirror : String → Option (Option DidValue)
  decodeWeb : String → Option String
  parseTime : String → Option Int
  parseDidDoc : Nat → Option (String × DidValue)
  lines : Nat → List String
  parsePlc : String → Option PlcDoc
  parse : Nat → Option Event
  sigOk : CommitInfo → Nat → Option Bool
  verifyCommitEvent : Event → Nat → RepoState → Bool

/-- Resolver state (`struct Resolver`): the LRU cache as an association list in
most-recently-used-first order, the PLC export cursor `after`, the inflight DID
set (as a duplicate-free list), the outstanding-fetch collection (by query
tag), the time of the last export request, and the rows this process has
inserted into `plc_operations`. -/
structure Resolver where
  cache : List (String × DidValue)
  after : Option String
  inflight : List String
  futures : List Query
  last : Nat
  mirrorOps : List PlcDoc
  deriving DecidableEq, Repr

/-- `str::starts_with` over the character list (byte prefixes and character
prefixes agree on UTF-8 text). -/
def strStarts (s p : String) : Bool :=
  p.data.isPrefixOf s.data

/-- Lexicographic character-list comparison; UTF-8 byte order (the order the
KV store keeps its keys in) coincides with code-point order. -/
def strLtb : List Char → List Char → Bool
  | [], [] => false
  | [], _ :: _ => true
  | _ :: _, [] => false
  | a :: as, b :: bs =>
    if a.val < b.val then true
    else if b.val < a.val then false
    else strLtb as bs

/-- Key order of the KV store. -/
def strLt (s t : String) : Bool := strLtb s.data t.data

/-- Split a character list on a separator (`str::split`). -/
def splitChar (sep : Char) : List Char → List (List Char)
  | [] => [[]]
  | c :: rest =>
    match splitChar sep rest with
    | [] => [[c]]
    | g :: gs => if c = sep then [] :: g :: gs else (c :: g) :: gs

/-- LRU lookup (`LruCache::get`): on a hit the entry moves to the front. -/
def lruGet (c : List (String × DidValue)) (k : String) :
    Option DidValue × List (String × DidValue) :=
  match c.find? (fun p => p.1 == k) with
  | none => (none, c)
  | some p => (some p.2, (k, p.2) :: c.eraseP (fun q => q.1 == k))

/-- LRU insert (`LruCache::put`): the entry becomes most-recent; the
least-recent entry is evicted when the capacity is exceeded. -/
def lruPut (cap : Nat) (c : List (String × DidValue)) (k : String) (v : DidValue) :
    List (String × DidValue) :=
  ((k, v) :: c.eraseP (fun q => q.1 == k)).take cap

/-- LRU removal (`LruCache::pop`). -/
def lruPop (c : List (String × DidValue)) (k : String) : List (String × DidValue) :=
  c.eraseP (fun q => q.1 == k)

/-- `HashSet::insert` on the inflight list. -/
def insertS (l : List String) (d : String) : List String :=
  if d ∈ l then l else d :: l

/-- `HashSet::remove` on the inflight list. -/
def removeS (l : List String) (d : String) : List String :=
  l.filter (fun x => x ≠ d)

/-- `Resolver::send_req`: dispatch one fetch. A did:web host fetch if `web` is
set, else a direct plc.directory DID fetch if `plc` is set, else the next PLC
export request, which consumes the stored `after` cursor (`self.after.take()`)
and notes the request time; with no `after` cursor nothing is sent. -/
def Resolver.send_req (r : Resolver) (now : Nat) (web : Option String)
    (plc : Option String) : Resolver :=
  match web with
  | some w => { r with futures := r.futures ++ [Query.did w] }
  | none =>
    match plc with
    | some p => { r with futures := r.futures ++ [Query.did p] }
    | none =>
      match r.after with
      | some a =>
        { r with after := none, last := now, futures := r.futures ++ [Query.plcExport a] }
      | none => r

/-- `Resolver::request`: insert the DID into inflight, then dispatch one fetch.
A did:plc DID defers to the export when `DO_PLC_EXPORT` is set, else fetches
the document directly; a did:web DID fetches `https://host/.well-known/did.json`
after percent-decoding the host (on decode failure it returns with the DID left
in inflight); any other DID is invalid and is removed from inflight again. -/
def Resolver.request (env : Env) (r : Resolver) (now : Nat) (did : String) : Resolver :=
  let r1 : Resolver := { r with inflight := insertS r.inflight did }
  if strStarts did "did:plc:" then
    r1.send_req now none (if env.doPlcExport then none else some (did.drop 8))
  else if strStarts did "did:web:" then
    match env.decodeWeb (did.drop 8) with
    | some web => r1.send_req now (some web) none
    | none => r1
  else
    { r1 with inflight := removeS r1.inflight did }

/-- `Resolver::resolve`: inflight DIDs answer `None`; then the cache, then the
mirror (`query_db`, which caches its hit); a complete miss issues a request and
answers `None`.  The source returns `self.cache.peek_mru()` on a hit, embedded
here as the head of the reordered cache. -/
def Resolver.resolve (env : Env) (r : Resolver) (now : Nat) (did : String) :
    Option DidValue × Resolver :=
  if did ∈ r.inflight then (none, r)
  else
    match lruGet r.cache did with
    | (some _, cache') =>
      let r1 : Resolver := { r with cache := cache' }
      (r1.cache.head?.map Prod.snd, r1)
    | (none, _) =>
      match env.mirror did with
      | some (some v) =>
        let r1 : Resolver := { r with cache := lruPut env.cap r.cache did v }
        (r1.cache.head?.map Prod.snd, r1)
      | _ => (none, Resolver.request env r now did)

/-- `Resolver::expire`: when an `after` cursor exists and it parses to a time
earlier than the event time (or fails to parse), pop the DID from the cache and
re-request it; otherwise do nothing. -/
def Resolver.expire (env : Env) (r : Resolver) (now : Nat) (did : String)
    (time : Int) : Resolver :=
  match r.after with
  | none => r
  | some a =>
    let newer : Bool :=
      match env.parseTime a with
      | none => true
      | some ta => decide (ta < time)
    if newer then Resolver.request env { r with cache := lruPop r.cache did } now did
    else r

/-- One line of the PLC-export ingest loop in `Resolver::poll`: a row that
parses is inserted into `plc_operations`, advances `after` to its
`created_at`, and, when its DID was inflight, removes it from inflight and
appends it to the newly-resolvable vector. -/
def exportStep (env : Env) (acc : List String × Resolver) (line : String) :
    List String × Resolver :=
  match env.parsePlc line with
  | none => acc
  | some doc =>
    let r1 : Resolver :=
      { acc.2 with mirrorOps := acc.2.mirrorOps ++ [doc], after := some doc.created_at }
    if doc.did ∈ r1.inflight then
      (acc.1 ++ [doc.did], { r1 with inflight := removeS r1.inflight doc.did })
    else (acc.1, r1)

/-- `Resolver::poll`: drive the outstanding futures for at most one completed
response (the `timeout(POLL_TIMEOUT, futures.next())` in the source completes
at most one future per call); `completed` is that at-most-one result, `none`
when the timeout elapsed with nothing finished.  A DID-document response whose
document id mismatches its query is dropped; an export batch is ingested line
by line, re-requesting the next page when the batch was the full page size
(1000 lines) and otherwise draining every remaining inflight did:plc DID; when
nothing completed and the export interval has elapsed a new export is sent. -/
def Resolver.poll (env : Env) (r : Resolver) (now : Nat)
    (completed : Option (Query × Option Nat)) : List String × Resolver :=
  match completed with
  | some (Query.did query, some bytes) =>
    match env.parseDidDoc bytes with
    | some (did, v) =>
      if query ≠ did.drop 8 then ([], r)
      else
        ([did], { r with inflight := removeS r.inflight did,
                         cache := lruPut env.cap r.cache did v })
    | none => ([], r)
  | some (Query.plcExport a, some bytes) =>
    let lns := env.lines bytes
    let pr := lns.foldl (exportStep env) ([], { r with after := some a })
    if lns.length = 1000 then (pr.1, pr.2.send_req now none none)
    else
      (pr.1 ++ pr.2.inflight.filter (fun d => strStarts d "did:plc:"),
       { pr.2 with inflight := pr.2.inflight.filter (fun d => ! strStarts d "did:plc:") })
  | some (_, none) => ([], r)
  | none =>
    if env.doPlcExport = true ∧ now - r.last > env.plcInterval then
      ([], r.send_req now none none)
    else ([], r)

/-- Modelled from the spec: `Cursor::next` (src/rsky-relay/src/types.rs is not
among the provided sources).  Spec section 3: a 64-bit monotonic counter;
"`next()` returns its current value and post-increments. Never reused."
Embedded over `Nat` (the spec treats the counter as never wrapping); the first
component is the returned value, the second the counter afterwards. -/
def Cursor.next (c : Nat) : Nat × Nat := (c, c + 1)

/-- Modelled from the spec: `SubscribeReposEvent::serialize`
(src/rsky-relay/src/validator/event.rs is not among the provided sources).
Spec sections 3 and 6: the serialized outbound frame is the relay envelope
carrying the relay-assigned cursor passed to `serialize` in place of the
upstream one.  The frame is embedded as that cursor together with the event it
envelopes. -/
structure Frame where
  cursor : Nat
  ev : Event
  deriving DecidableEq, Repr

/-- Validator-manager state (`struct Manager` plus the fjall partitions it
owns): the per-host table, the per-repo head table, the firehose log as the
list of inserted (key, frame) pairs in insertion order, the queue partition as
an association list kept sorted by key (the KV store serves ordered key
ranges), the relay cursor, and the resolver. -/
structure MState where
  hosts : String → Option (Nat × Int)
  repos : String → Option RepoState
  firehose : List (Nat × Frame)
  queue : List (String × Nat)
  cursor : Nat
  resolver : Resolver

/-- Point update of the host table. -/
def setHost (m : String → Option (Nat × Int)) (k : String) (v : Nat × Int) :
    String → Option (Nat × Int) :=
  fun k' => if k' = k then some v else m k'

/-- Point update of the repo table. -/
def setRepo (m : String → Option RepoState) (k : String) (v : RepoState) :
    String → Option RepoState :=
  fun k' => if k' = k then some v else m k'

/-- Insert into the sorted queue partition (KV point write: upsert, keys kept
in lexicographic order as the store serves them). -/
def kvInsert : List (String × Nat) → String → Nat → List (String × Nat)
  | [], k, v => [(k, v)]
  | (k', v') :: rest, k, v =>
    if strLt k k' then (k, v) :: (k', v') :: rest
    else if k = k' then (k, v) :: rest
    else (k', v') :: kvInsert rest k v

/-- The endpoint check shared by ingest and `scan_did`: when the resolved
binding carries a PDS hostname it must equal the frame's host. -/
def endpointOk (pds : Option String) (host : String) : Bool :=
  match pds with
  | some p => host == p
  | none => true

/-- The signature check followed by the commit-event (revision) check: the
signature must verify, and for a `#commit` event with a previously recorded
repo state, `utils::verify_commit_event` must accept it.  Either `continue` in
the source drops the message with no state change, so the two checks combine
into one boolean here. -/
def sigRevOk (env : Env) (st : MState) (ev : Event) (commit : CommitInfo)
    (key : Nat) : Bool :=
  match env.sigOk commit key with
  | some true =>
    if ev.kind = SubKind.commit then
      match st.repos commit.did with
      | some prev => env.verifyCommitEvent ev commit.data prev
      | none => true
    else true
  | _ => false

/-- Admission of a commit-bearing event in ingest (manager.rs lines 303-307):
serialize with a fresh cursor, insert into the firehose at `*cursor`, record
the repo state, update the host record. -/
def admitIngest (st : MState) (host : String) (ev : Event) (time : Int)
    (commit : CommitInfo) (head : Nat) : MState :=
  let n := Cursor.next st.cursor
  { st with cursor := n.2,
            firehose := st.firehose ++ [(n.2, Frame.mk n.1 ev)],
            repos := setRepo st.repos commit.did (RepoState.mk commit.rev commit.data head),
            hosts := setHost st.hosts host (ev.seq, time) }

/-- Admission of a replayed queue record in `scan_did` (manager.rs lines
387-390): serialize with a fresh cursor, insert into the firehose, record the
repo state; the host table is not touched on this path. -/
def admitScan (st : MState) (ev : Event) (commit : CommitInfo) (head : Nat) : MState :=
  let n := Cursor.next st.cursor
  { st with cursor := n.2,
            firehose := st.firehose ++ [(n.2, Frame.mk n.1 ev)],
            repos := setRepo st.repos commit.did (RepoState.mk commit.rev commit.data head) }

/-- The commit-bearing tail of ingest after the endpoint check: signature and
revision checks, then admission; a failed check drops the message. -/
def ingestChecked (env : Env) (st : MState) (host : String) (ev : Event)
    (time : Int) (commit : CommitInfo) (head : Nat) (key : Nat) : MState :=
  if sigRevOk env st ev commit key then admitIngest st host ev time commit head
  else st

/-- Ingest of one parsed event after the per-host sequence check, with `time`
already clamped (manager.rs lines 218-307): commit extraction, the non-commit
fast path (expiring the DID of an Identity event, then firehose insert and
host update), identity resolution with queueing on a miss, the PDS/hostname
migration check with expiry and queueing on mismatch, then signature and
revision checks and admission. -/
def processEvent (env : Env) (st : MState) (now : Nat) (host : String) (raw : Nat)
    (ev : Event) (time : Int) : MState :=
  match ev.commitRes with
  | CommitRes.err => st
  | CommitRes.noCommit =>
    let st1 :=
      if ev.kind = SubKind.identity then
        { st with resolver := Resolver.expire env st.resolver now ev.did ev.time }
      else st
    let n := Cursor.next st1.cursor
    { st1 with cursor := n.2,
               firehose := st1.firehose ++ [(n.2, Frame.mk n.1 ev)],
               hosts := setHost st1.hosts host (ev.seq, time) }
  | CommitRes.commitOf commit head =>
    if ev.validates = false then st
    else
      match Resolver.resolve env st.resolver now ev.did with
      | (none, r') =>
        { st with resolver := r',
                  queue := kvInsert st.queue (ev.did ++ ">" ++ host ++ ">" ++ toString ev.seq) raw,
                  hosts := setHost st.hosts host (ev.seq, time) }
      | (some v, r') =>
        let st1 : MState := { st with resolver := r' }
        match v.endpoint with
        | some pds =>
          if host ≠ pds then
            let st2 : MState :=
              { st1 with resolver := Resolver.expire env st1.resolver now ev.did time }
            { st2 with
              queue := kvInsert st2.queue (ev.did ++ ">" ++ host ++ ">" ++ toString ev.seq) raw,
              hosts := setHost st2.hosts host (ev.seq, time) }
          else ingestChecked env st1 host ev time commit head v.key
        | none => ingestChecked env st1 host ev time commit head v.key

/-- Ingest of one raw inbound message (the body of the batch loop in
`Manager::update`, manager.rs lines 174-308): parse, then the per-host
sequence check — with a prior host record `(prev, old)` the event time is
clamped to `max(time, old)`, a sequence at or below `prev` drops the message
entirely, and a gap only logs — then `processEvent`. -/
def ingestOne (env : Env) (st : MState) (now : Nat) (host : String) (raw : Nat) : MState :=
  match env.parse raw with
  | none => st
  | some ev =>
    match st.hosts host with
    | some pt =>
      if ev.seq ≤ pt.1 then st
      else processEvent env st now host raw ev (max ev.time pt.2)
    | none => processEvent env st now host raw ev ev.time

/-- The host field of a queue key: `key.split('>').nth(1)` (the source unwraps;
keys are built with two separators). -/
def hostOfKey (k : String) : String :=
  match (splitChar '>' k.data).drop 1 with
  | [] => ""
  | h :: _ => String.mk h

/-- One iterated queue record in `scan_did` (manager.rs lines 321-391): re-parse
the frame, re-extract the commit, repeat the endpoint, signature and revision
checks, and admit on success; any failed check drops this record only.  The
source unwraps the parse and commit extraction (queue records were parsed once
already, and a failure there aborts the validator); records that do not parse
to a commit-bearing event are skipped here. -/
def processQueueRec (env : Env) (pds : Option String) (key : Nat) (st : MState)
    (kv : String × Nat) : MState :=
  match env.parse kv.2 with
  | some ev =>
    match ev.commitRes with
    | CommitRes.commitOf commit head =>
      if endpointOk pds (hostOfKey kv.1) then
        if sigRevOk env st ev commit key then admitScan st ev commit head else st
      else st
    | _ => st
  | none => st

/-- `Manager::scan_did` (manager.rs lines 317-397): resolve the DID (the source
panics when unresolved; modelled as a no-op scan), iterate the queue records
whose key starts with the DID string (`self.queue.prefix(&did)`, byte-prefix
over the key-ordered partition), process each, and remove every iterated key in
one batch committed at the end. -/
def scanDid (env : Env) (st : MState) (now : Nat) (did : String) : MState :=
  match Resolver.resolve env st.resolver now did with
  | (none, r') => { st with resolver := r' }
  | (some v, r') =>
    let recs := st.queue.filter (fun kv => strStarts kv.1 did)
    let st1 := recs.foldl (processQueueRec env v.endpoint v.key) { st with resolver := r' }
    { st1 with queue := st1.queue.filter (fun kv => ! strStarts kv.1 did) }

/-- One unit of validator work: an inbound message, a queue scan for a DID, or
a resolver poll whose newly-resolvable DIDs are each drained with `scan_did`
(the loop at manager.rs lines 310-312). -/
inductive MInput
  | msg (now : Nat) (host : String) (raw : Nat)
  | scan (now : Nat) (did : String)
  | pollRes (now : Nat) (completed : Option (Query × Option Nat))

/-- One step of the validator on one input. -/
def mStep (env : Env) (st : MState) : MInput → MState
  | MInput.msg now host raw => ingestOne env st now host raw
  | MInput.scan now did => scanDid env st now did
  | MInput.pollRes now completed =>
    let pr := Resolver.poll env st.resolver now completed
    pr.1.foldl (fun s d => scanDid env s now d) { st with resolver := pr.2 }

/-- A validator run over a list of inputs. -/
def mRun (env : Env) (st0 : MState) (inputs : List MInput) : MState :=
  inputs.foldl (mStep env) st0

/-- A downstream publisher connection as the worker sees it: remote address,
current cursor, outbound send buffer of (cursor, data) pairs. -/
structure WConn where
  addr : String
  cursor : Nat
  buf : List (Nat × Nat)
  deriving DecidableEq, Repr

/-- Modelled from the spec: `Connection::send`
(src/rsky-relay/src/publisher/connection.rs is not among the provided
sources).  Spec sections 4.3 and its backpressure rules: append `(cursor,
data)` to the connection's outbound buffer; a connection whose send buffer
would exceed the configured ceiling fails the send. -/
def WConn.send (ceil : Nat) (c : WConn) (cur : Nat) (d : Nat) : Option WConn :=
  if c.buf.length < ceil then some { c with buf := c.buf ++ [(cur, d)] } else none

/-- Publisher-worker state (`struct Worker`): the dense connection table
(holes allowed) and the poller's registered index tokens. -/
structure Worker where
  connections : List (Option WConn)
  registered : List Nat
  deriving DecidableEq, Repr

/-- The loop body of `Worker::send` over the connection table starting at
index `i`: try the send on every active connection; a failing connection is
replaced by a hole and its index is collected for deregistration. -/
def sendAll (ceil : Nat) (cur : Nat) (d : Nat) :
    List (Option WConn) → Nat → List (Option WConn) × List Nat
  | [], _ => ([], [])
  | none :: rest, i =>
    let pr := sendAll ceil cur d rest (i + 1)
    (none :: pr.1, pr.2)
  | some c :: rest, i =>
    let pr := sendAll ceil cur d rest (i + 1)
    match WConn.send ceil c cur d with
    | some c' => (some c' :: pr.1, pr.2)
    | none => (none :: pr.1, i :: pr.2)

/-- `Worker::send` (worker.rs lines 138-153): broadcast `(cursor, data)` to
every active connection; each connection whose own send fails is deregistered
from the poller and dropped; the function returns `true` unconditionally. -/
def Worker.send (ceil : Nat) (w : Worker) (cur : Nat) (d : Nat) : Worker × Bool :=
  let pr := sendAll ceil cur d w.connections 0
  ({ connections := pr.1,
     registered := w.registered.filter (fun i => decide (i ∉ pr.2)) }, true)

/-
Helper lemmas shared by the claim theorems.
-/

theorem send_req_inflight (r : Resolver) (now : Nat) (web plc : Option String) :
    (Resolver.send_req r now web plc).inflight = r.inflight := by
  unfold Resolver.send_req
  cases web with
  | some w => rfl
  | none =>
    cases plc with
    | some p => rfl
    | none => cases h : r.after <;> rfl

theorem send_req_cache (r : Resolver) (now : Nat) (web plc : Option String) :
    (Resolver.send_req r now web plc).cache = r.cache := by
  unfold Resolver.send_req
  cases web with
  | some w => rfl
  | none =>
    cases plc with
    | some p => rfl
    | none => cases h : r.after <;> rfl

theorem mem_insertS (l : List String) (d : String) : d ∈ insertS l d := by
  unfold insertS
  split
  · assumption
  · exact List.mem_cons_self d l

theorem mem_insertS_of_mem (l : List String) (d x : String) (h : x ∈ l) :
    x ∈ insertS l d := by
  unfold insertS
  split
  · exact h
  · exact List.mem_cons_of_mem d h

theorem request_inflight_mem (env : Env) (r : Resolver) (now : Nat) (did : String)
    (h : strStarts did "did:plc:" = true ∨ strStarts did "did:web:" = true) :
    did ∈ (Resolver.request env r now did).inflight := by
  unfold Resolver.request
  rcases h with h | h
  · simp only [h, if_true]
    rw [send_req_inflight]
    exact mem_insertS r.inflight did
  · by_cases hplc : strStarts did "did:plc:" = true
    · simp only [hplc, if_true]
      rw [send_req_inflight]
      exact mem_insertS r.inflight did
    · simp only [hplc, h, Bool.false_eq_true, if_false, if_true]
      cases env.decodeWeb (did.drop 8) with
      | some web =>
        simp only
        rw [send_req_inflight]
        exact mem_insertS r.inflight did
      | none => exact mem_insertS r.inflight did

/-- C10: `Resolver::poll` drives `timeout(POLL_TIMEOUT, futures.next())`, so one
call consumes at most one completed HTTP response (the embedding's `completed`
argument); when nothing completed, or the one response errored, it returns no
newly-resolvable DIDs, and a completed DID-document response yields a vector of
length at most one. -/
theorem c10_poll_at_most_one (env : Env) (r : Resolver) (now : Nat) :
    (Resolver.poll env r now none).1 = [] ∧
    (∀ qr : Query, (Resolver.poll env r now (some (qr, none))).1 = []) ∧
    (∀ q res, ((Resolver.poll env r now (some (Query.did q, res))).1).length ≤ 1) := by
  refine ⟨?_, ?_, ?_⟩
  · show (if env.doPlcExport = true ∧ now - r.last > env.plcInterval
        then (([] : List String), r.send_req now none none) else ([], r)).1 = []
    split <;> rfl
  · intro qr
    cases qr <;> rfl
  · intro q res
    cases res with
    | none => exact Nat.zero_le 1
    | some bytes =>
      show ((match env.parseDidDoc bytes with
        | some (did, v) =>
          if q ≠ did.drop 8 then (([] : List String), r)
          else ([did], { r with inflight := removeS r.inflight did,
                                cache := lruPut env.cap r.cache did v })
        | none => ([], r)).1).length ≤ 1
      cases h : env.parseDidDoc bytes with
      | none => simp [h]
      | some pv =>
        obtain ⟨did, v⟩ := pv
        simp only [h]
        split <;> simp

/-- C4: for a DID of one of the two supported methods (the spec's glossary
defines a DID as a `did:plc:` or `did:web:` string), whenever `resolve`
answers `None` the DID is in the resolver's inflight set at return: either it
was already inflight, or `request` has just inserted it (and in the did:plc /
decodable did:web cases also pushed a fetch). -/
theorem c4_resolve_none_inflight (env : Env) (r : Resolver) (now : Nat) (did : String)
    (hcap : 1 ≤ env.cap)
    (hdid : strStarts did "did:plc:" = true ∨ strStarts did "did:web:" = true)
    (hres : (Resolver.resolve env r now did).1 = none) :
    did ∈ (Resolver.resolve env r now did).2.inflight := by
  obtain ⟨m, hm⟩ : ∃ m, env.cap = m + 1 := ⟨env.cap - 1, by omega⟩
  by_cases hin : did ∈ r.inflight
  · unfold Resolver.resolve
    simp only [if_pos hin]
    exact hin
  · cases hf : r.cache.find? (fun p => p.1 == did) with
    | some p =>
      exfalso
      unfold Resolver.resolve lruGet at hres
      simp [hin, hf] at hres
    | none =>
      cases hmr : env.mirror did with
      | some ov =>
        cases ov with
        | some v =>
          exfalso
          unfold Resolver.resolve lruGet lruPut at hres
          simp [hin, hf, hmr, hm] at hres
        | none =>
          unfold Resolver.resolve lruGet
          simp only [hf, hmr, if_neg hin]
          exact request_inflight_mem env r now did hdid
      | none =>
        unfold Resolver.resolve lruGet
        simp only [hf, hmr, if_neg hin]
        exact request_inflight_mem env r now did hdid

/-- A concrete environment for witnesses: capacity-1 cache, no export, an
empty mirror, identity percent-decoding, all other oracles inert. -/
def env4 : Env where
  cap := 1
  doPlcExport := false
  plcInterval := 0
  mirror := fun _ => none
  decodeWeb := fun s => some s
  parseTime := fun _ => none
  parseDidDoc := fun _ => none
  lines := fun _ => []
  parsePlc := fun _ => none
  parse := fun _ => none
  sigOk := fun _ _ => none
  verifyCommitEvent := fun _ _ _ => false

/-- The empty resolver state. -/
def r0 : Resolver where
  cache := []
  after := none
  inflight := []
  futures := []
  last := 0
  mirrorOps := []

/-- Witness for C4 at a concrete unresolvable did:web DID. -/
theorem c4_witness :
    "did:web:example.com" ∈ (Resolver.resolve env4 r0 0 "did:web:example.com").2.inflight :=
  c4_resolve_none_inflight env4 r0 0 "did:web:example.com" (by decide)
    (Or.inr (by decide)) (by decide)

theorem request_cache (env : Env) (r : Resolver) (now : Nat) (did : String) :
    (Resolver.request env r now did).cache = r.cache := by
  unfold Resolver.request
  by_cases h1 : strStarts did "did:plc:" = true
  · simp only [h1, if_true]
    rw [send_req_cache]
  · simp only [h1, Bool.false_eq_true, if_false]
    by_cases h2 : strStarts did "did:web:" = true
    · simp only [h2, if_true]
      cases hd : env.decodeWeb (did.drop 8) with
      | some w =>
        dsimp only
        rw [send_req_cache]
      | none => rfl
    · simp only [h2, Bool.false_eq_true, if_false]

/-- C6 amended: with a mirror high-water cursor `after` that parses to time
`ta`: when `t` is not newer than `ta`, `expire(did, t)` returns the resolver
entirely unchanged.  When `t` is newer, it pops the DID from the cache and
re-requests it, and the re-request schedules a refresh fetch for a did:plc DID
(the direct plc.directory document fetch when exports are off, or the next
export request — consuming the stored `after` cursor — when they are on) and
for a decodable did:web DID (the host-document fetch); but for a did:web DID
whose method-specific part fails percent-decoding the cache entry is popped
with no fetch pushed at all — the DID is merely left in the inflight set. -/
theorem c6_expire_amended (env : Env) (r : Resolver) (now : Nat) (did : String)
    (t : Int) (a : String) (ta : Int)
    (ha : r.after = some a) (hta : env.parseTime a = some ta) :
    (¬ ta < t → Resolver.expire env r now did t = r) ∧
    (ta < t →
      Resolver.expire env r now did t
          = Resolver.request env { r with cache := lruPop r.cache did } now did ∧
      (Resolver.expire env r now did t).cache = lruPop r.cache did ∧
      (strStarts did "did:plc:" = true → env.doPlcExport = false →
        (Resolver.expire env r now did t).inflight = insertS r.inflight did ∧
        (Resolver.expire env r now did t).futures
            = r.futures ++ [Query.did (did.drop 8)]) ∧
      (strStarts did "did:plc:" = true → env.doPlcExport = true →
        (Resolver.expire env r now did t).inflight = insertS r.inflight did ∧
        (Resolver.expire env r now did t).futures = r.futures ++ [Query.plcExport a] ∧
        (Resolver.expire env r now did t).after = none) ∧
      (∀ w, strStarts did "did:plc:" = false → strStarts did "did:web:" = true →
        env.decodeWeb (did.drop 8) = some w →
        (Resolver.expire env r now did t).inflight = insertS r.inflight did ∧
        (Resolver.expire env r now did t).futures = r.futures ++ [Query.did w]) ∧
      (strStarts did "did:plc:" = false → strStarts did "did:web:" = true →
        env.decodeWeb (did.drop 8) = none →
        (Resolver.expire env r now did t).inflight = insertS r.inflight did ∧
        (Resolver.expire env r now did t).futures = r.futures)) := by
  constructor
  · intro hge
    unfold Resolver.expire
    simp [ha, hta, hge]
  · intro hlt
    have hexp : Resolver.expire env r now did t
        = Resolver.request env { r with cache := lruPop r.cache did } now did := by
      unfold Resolver.expire
      simp only [ha, hta, decide_eq_true_eq, if_pos hlt]
    refine ⟨hexp, ?_, ?_, ?_, ?_, ?_⟩
    · rw [hexp, request_cache]
    · intro hplc hexport
      rw [hexp]
      unfold Resolver.request
      simp only [hplc, if_true, hexport, Bool.false_eq_true, if_false]
      constructor
      · rw [send_req_inflight]
      · rfl
    · intro hplc hexport
      rw [hexp]
      unfold Resolver.request
      simp only [hplc, if_true, hexport]
      unfold Resolver.send_req
      dsimp only
      rw [ha]
      refine ⟨?_, ?_, ?_⟩ <;> rfl
    · intro w hplc hweb hdec
      rw [hexp]
      unfold Resolver.request
      simp only [hplc, Bool.false_eq_true, if_false, hweb, if_true, hdec]
      constructor
      · rw [send_req_inflight]
      · rfl
    · intro hplc hweb hdec
      rw [hexp]
      unfold Resolver.request
      simp only [hplc, Bool.false_eq_true, if_false, hweb, if_true, hdec]
      exact ⟨by simp, by simp⟩

/-- An environment for the C6 counterexample: the high-water string "hw"
parses to time 5 and percent-decoding fails (as urlencoding::decode does on an
invalid sequence such as "%FF"). -/
def envc6 : Env where
  cap := 1
  doPlcExport := false
  plcInterval := 0
  mirror := fun _ => none
  decodeWeb := fun _ => none
  parseTime := fun a => if a = "hw" then some 5 else none
  parseDidDoc := fun _ => none
  lines := fun _ => []
  parsePlc := fun _ => none
  parse := fun _ => none
  sigOk := fun _ _ => none
  verifyCommitEvent := fun _ _ _ => false

/-- A resolver holding the high-water cursor "hw" and a cached binding for the
did:web DID whose host part fails percent-decoding. -/
def rc6 : Resolver where
  cache := [("did:web:%FF", DidValue.mk none 0)]
  after := some "hw"
  inflight := []
  futures := []
  last := 0
  mirrorOps := []

/-- Counterexample for C6 as stated: at event time 6, newer than the
high-water 5, expiring the did:web DID whose method-specific part fails
percent-decoding pops it from the cache but schedules no refresh fetch (the
futures collection stays empty; the DID is merely left in the inflight set), so
"removes d from the cache and schedules a refresh fetch if and only if t is
newer than the mirror's high-water timestamp" is false. -/
theorem c6_counterexample :
    ((5 : Int) < 6) ∧
    (Resolver.expire envc6 rc6 0 "did:web:%FF" 6).cache = [] ∧
    (Resolver.expire envc6 rc6 0 "did:web:%FF" 6).futures = [] ∧
    "did:web:%FF" ∈ (Resolver.expire envc6 rc6 0 "did:web:%FF" 6).inflight := by
  refine ⟨by decide, by decide, by decide, by decide⟩

/-- A concrete environment for the C6 witness: the high-water string "hw"
parses to time 5 and percent-decoding is the identity. -/
def env6 : Env where
  cap := 1
  doPlcExport := false
  plcInterval := 0
  mirror := fun _ => none
  decodeWeb := fun s => some s
  parseTime := fun a => if a = "hw" then some 5 else none
  parseDidDoc := fun _ => none
  lines := fun _ => []
  parsePlc := fun _ => none
  parse := fun _ => none
  sigOk := fun _ _ => none
  verifyCommitEvent := fun _ _ _ => false

/-- A concrete resolver holding the high-water cursor "hw". -/
def r6 : Resolver where
  cache := []
  after := some "hw"
  inflight := []
  futures := []
  last := 0
  mirrorOps := []

/-- Witness for C6 (amended): expiring `did:web:a` at time 6 (newer than the
high-water 5) schedules the refresh fetch for host `a`. -/
theorem c6_witness :
    (Resolver.expire env6 r6 0 "did:web:a" 6).futures = [Query.did "a"] := by
  have h := ((c6_expire_amended env6 r6 0 "did:web:a" 6 "hw" 5 rfl (by decide)).2
    (by decide)).2.2.2.2.1 "a" (by decide) (by decide) rfl
  simpa using h.2

/-- The effect of one broadcast on one connection slot: holes stay holes, an
active connection is replaced by the result of its own send (a hole when it
failed). -/
def sendOne (ceil : Nat) (cur : Nat) (d : Nat) (oc : Option WConn) : Option WConn :=
  oc.bind (fun c => WConn.send ceil c cur d)

theorem sendAll_fst (ceil cur d : Nat) :
    ∀ (l : List (Option WConn)) (i : Nat),
      (sendAll ceil cur d l i).1 = l.map (sendOne ceil cur d) := by
  intro l
  induction l with
  | nil => intro i; rfl
  | cons hd rest ih =>
    intro i
    cases hd with
    | none => simp [sendAll, sendOne, ih]
    | some c =>
      cases hsend : WConn.send ceil c cur d with
      | some c' => simp [sendAll, sendOne, hsend, ih]
      | none => simp [sendAll, sendOne, hsend, ih]

theorem sendAll_snd_spec (ceil cur d : Nat) :
    ∀ (l : List (Option WConn)) (i k : Nat),
      k ∈ (sendAll ceil cur d l i).2 ↔
        ∃ j c, l.get? j = some (some c) ∧ WConn.send ceil c cur d = none ∧ k = i + j := by
  intro l
  induction l with
  | nil =>
    intro i k
    simp [sendAll]
  | cons hd rest ih =>
    intro i k
    cases hd with
    | none =>
      show k ∈ (sendAll ceil cur d rest (i + 1)).2 ↔ _
      rw [ih]
      constructor
      · rintro ⟨j, c, hg, hs, rfl⟩
        exact ⟨j + 1, c, by simpa using hg, hs, by omega⟩
      · rintro ⟨j, c, hg, hs, rfl⟩
        cases j with
        | zero => simp at hg
        | succ j' =>
          exact ⟨j', c, by simpa using hg, hs, by omega⟩
    | some c0 =>
      cases hsend : WConn.send ceil c0 cur d with
      | some c' =>
        have hred : (sendAll ceil cur d (some c0 :: rest) i).2
            = (sendAll ceil cur d rest (i + 1)).2 := by
          simp [sendAll, hsend]
        rw [hred, ih]
        constructor
        · rintro ⟨j, c, hg, hs, rfl⟩
          exact ⟨j + 1, c, by simpa using hg, hs, by omega⟩
        · rintro ⟨j, c, hg, hs, rfl⟩
          cases j with
          | zero =>
            simp only [List.get?_cons_zero, Option.some.injEq] at hg
            rw [← hg] at hs
            rw [hsend] at hs
            exact absurd hs (by simp)
          | succ j' =>
            exact ⟨j', c, by simpa using hg, hs, by omega⟩
      | none =>
        have hred : (sendAll ceil cur d (some c0 :: rest) i).2
            = i :: (sendAll ceil cur d rest (i + 1)).2 := by
          simp [sendAll, hsend]
        rw [hred]
        simp only [List.mem_cons, ih]
        constructor
        · rintro (rfl | ⟨j, c, hg, hs, rfl⟩)
          · exact ⟨0, c0, by simp, hsend, by omega⟩
          · exact ⟨j + 1, c, by simpa using hg, hs, by omega⟩
        · rintro ⟨j, c, hg, hs, rfl⟩
          cases j with
          | zero => exact Or.inl (by omega)
          | succ j' =>
            exact Or.inr ⟨j', c, by simpa using hg, hs, by omega⟩

/-- C8: `Worker::send` appends the frame to every active connection's buffer,
returns `true` for every input, and on a connection-specific failure (the
buffer ceiling) deregisters and drops exactly that connection: a succeeding
connection keeps its slot and its registration, a failing one becomes a hole
and leaves the registered set, holes stay holes. -/
theorem c8_send_broadcast (ceil : Nat) (w : Worker) (cur d : Nat) :
    (Worker.send ceil w cur d).2 = true ∧
    (∀ i c, w.connections.get? i = some (some c) → c.buf.length < ceil →
      (Worker.send ceil w cur d).1.connections.get? i
        = some (some { c with buf := c.buf ++ [(cur, d)] }) ∧
      (i ∈ (Worker.send ceil w cur d).1.registered ↔ i ∈ w.registered)) ∧
    (∀ i c, w.connections.get? i = some (some c) → ¬ c.buf.length < ceil →
      (Worker.send ceil w cur d).1.connections.get? i = some none ∧
      i ∉ (Worker.send ceil w cur d).1.registered) ∧
    (∀ i, w.connections.get? i = some none →
      (Worker.send ceil w cur d).1.connections.get? i = some none) := by
  refine ⟨rfl, ?_, ?_, ?_⟩
  · intro i c hg hlen
    constructor
    · show ((sendAll ceil cur d w.connections 0).1).get? i = _
      rw [sendAll_fst, List.get?_map, hg]
      simp [sendOne, WConn.send, hlen]
    · show i ∈ (w.registered.filter fun j => decide (j ∉ (sendAll ceil cur d w.connections 0).2)) ↔ _
      constructor
      · intro hmem
        exact (List.mem_filter.mp hmem).1
      · intro hmem
        refine List.mem_filter.mpr ⟨hmem, ?_⟩
        rw [decide_eq_true_eq]
        intro hbad
        rw [sendAll_snd_spec] at hbad
        obtain ⟨j, c', hg', hs', hij⟩ := hbad
        have hji : j = i := by omega
        rw [hji, hg] at hg'
        have hcc : c = c' := by
          simpa using hg'
        rw [← hcc] at hs'
        unfold WConn.send at hs'
        simp [hlen] at hs'
  · intro i c hg hlen
    constructor
    · show ((sendAll ceil cur d w.connections 0).1).get? i = _
      rw [sendAll_fst, List.get?_map, hg]
      simp [sendOne, WConn.send, hlen]
    · show i ∉ (w.registered.filter fun j => decide (j ∉ (sendAll ceil cur d w.connections 0).2))
      intro hmem
      have hdec := (List.mem_filter.mp hmem).2
      rw [decide_eq_true_eq] at hdec
      refine hdec ?_
      rw [sendAll_snd_spec]
      refine ⟨i, c, hg, ?_, by omega⟩
      unfold WConn.send
      simp [hlen]
  · intro i hg
    show ((sendAll ceil cur d w.connections 0).1).get? i = _
    rw [sendAll_fst, List.get?_map, hg]
    rfl

theorem setHost_self (m : String → Option (Nat × Int)) (k : String) (v : Nat × Int) :
    setHost m k v k = some v := by
  simp [setHost]

theorem processEvent_hosts_cases (env : Env) (st : MState) (now : Nat) (host : String)
    (raw : Nat) (ev : Event) (time : Int) :
    (processEvent env st now host raw ev time).hosts host = st.hosts host ∨
    (processEvent env st now host raw ev time).hosts host = some (ev.seq, time) := by
  unfold processEvent
  cases hc : ev.commitRes with
  | err => exact Or.inl rfl
  | noCommit => exact Or.inr (setHost_self _ _ _)
  | commitOf commit head =>
    dsimp only
    by_cases hv : ev.validates = false
    · rw [if_pos hv]
      exact Or.inl rfl
    · rw [if_neg hv]
      cases hres : Resolver.resolve env st.resolver now ev.did with
      | mk o r' =>
        cases o with
        | none => exact Or.inr (setHost_self _ _ _)
        | some v =>
          dsimp only
          cases hpds : v.endpoint with
          | some pds =>
            dsimp only
            by_cases hne : host ≠ pds
            · rw [if_pos hne]
              exact Or.inr (setHost_self _ _ _)
            · rw [if_neg hne]
              unfold ingestChecked
              split
              · exact Or.inr (setHost_self _ _ _)
              · exact Or.inl rfl
          | none =>
            dsimp only
            unfold ingestChecked
            split
            · exact Or.inr (setHost_self _ _ _)
            · exact Or.inl rfl

/-- C2: the per-host sequence check of ingest.  With a prior host record
`(p, t)`: an upstream sequence at or below `p` drops the frame entirely (the
whole manager state, firehose, queue and host table included, is unchanged); a
larger sequence is still processed — a gap only differs from the contiguous
case by the trace it logs, so ingest equals the common continuation applied to
the time clamped to `max(time, t)` — and any host entry ingest leaves for this
host has a time at least `t`. -/
theorem c2_per_host_sequencing (env : Env) (st : MState) (now : Nat) (host : String)
    (raw : Nat) (ev : Event) (p : Nat) (t : Int)
    (hparse : env.parse raw = some ev)
    (hhost : st.hosts host = some (p, t)) :
    (ev.seq ≤ p → ingestOne env st now host raw = st) ∧
    (p < ev.seq →
      ingestOne env st now host raw = processEvent env st now host raw ev (max ev.time t)) ∧
    (∀ q u, (ingestOne env st now host raw).hosts host = some (q, u) → t ≤ u) := by
  refine ⟨?_, ?_, ?_⟩
  · intro hle
    unfold ingestOne
    simp [hparse, hhost, hle]
  · intro hlt
    unfold ingestOne
    simp [hparse, hhost, Nat.not_le.mpr hlt]
  · intro q u hq
    by_cases hle : ev.seq ≤ p
    · have : ingestOne env st now host raw = st := by
        unfold ingestOne
        simp [hparse, hhost, hle]
      rw [this, hhost] at hq
      cases hq
      exact le_refl t
    · have heq : ingestOne env st now host raw
          = processEvent env st now host raw ev (max ev.time t) := by
        unfold ingestOne
        simp [hparse, hhost, hle]
      rw [heq] at hq
      rcases processEvent_hosts_cases env st now host raw ev (max ev.time t) with h | h
      · rw [h, hhost] at hq
        cases hq
        exact le_refl t
      · rw [h] at hq
        cases hq
        exact le_max_right ev.time t

/-- A concrete non-commit event (an `#account` message, seq 3, time 7). -/
def ev2 : Event where
  kind := SubKind.account
  seq := 3
  time := 7
  did := "d"
  commitRes := CommitRes.noCommit
  validates := true

/-- An environment whose parser returns `ev2` for every raw frame. -/
def env2 : Env where
  cap := 1
  doPlcExport := false
  plcInterval := 0
  mirror := fun _ => none
  decodeWeb := fun s => some s
  parseTime := fun _ => none
  parseDidDoc := fun _ => none
  lines := fun _ => []
  parsePlc := fun _ => none
  parse := fun _ => some ev2
  sigOk := fun _ _ => none
  verifyCommitEvent := fun _ _ _ => false

/-- A host table holding `(5, 0)` for host "h". -/
def hosts2 : String → Option (Nat × Int) :=
  fun h => if h = "h" then some (5, 0) else none

/-- A manager state whose host table is `hosts2`. -/
def st2 : MState where
  hosts := hosts2
  repos := fun _ => none
  firehose := []
  queue := []
  cursor := 0
  resolver := r0

/-- Witness for C2: a frame with upstream seq 3 from a host whose record is at
seq 5 is dropped with the state unchanged. -/
theorem c2_witness : ingestOne env2 st2 0 "h" 0 = st2 :=
  (c2_per_host_sequencing env2 st2 0 "h" 0 ev2 5 0 rfl rfl).1 (by decide)

theorem sigRevOk_resolver (env : Env) (st : MState) (r' : Resolver) (ev : Event)
    (c : CommitInfo) (k : Nat) :
    sigRevOk env { st with resolver := r' } ev c k = sigRevOk env st ev c k := rfl

/-- C5: for a commit-bearing frame that reaches identity resolution, a drop for
signature mismatch, signature-verification error, or a failed commit-event
(revision) check leaves the host table (and the firehose and queue) unchanged;
whereas acceptance, queueing on an unresolved identity, and queueing on a
PDS/hostname mismatch all update the host record to `(seq, time)` with the
clamped time. -/
theorem c5_host_update_vs_drop (env : Env) (st : MState) (now : Nat) (host : String)
    (raw : Nat) (ev : Event) (time : Int) (commit : CommitInfo) (head : Nat)
    (hc : ev.commitRes = CommitRes.commitOf commit head)
    (hv : ev.validates = true) :
    (∀ v r', Resolver.resolve env st.resolver now ev.did = (some v, r') →
      (v.endpoint = none ∨ v.endpoint = some host) →
      ((env.sigOk commit v.key = some false ∨ env.sigOk commit v.key = none) →
        (processEvent env st now host raw ev time).hosts = st.hosts ∧
        (processEvent env st now host raw ev time).firehose = st.firehose ∧
        (processEvent env st now host raw ev time).queue = st.queue) ∧
      (∀ prev, env.sigOk commit v.key = some true → ev.kind = SubKind.commit →
        st.repos commit.did = some prev →
        env.verifyCommitEvent ev commit.data prev = false →
        (processEvent env st now host raw ev time).hosts = st.hosts ∧
        (processEvent env st now host raw ev time).firehose = st.firehose ∧
        (processEvent env st now host raw ev time).queue = st.queue) ∧
      (sigRevOk env st ev commit v.key = true →
        (processEvent env st now host raw ev time).hosts host = some (ev.seq, time))) ∧
    (∀ r', Resolver.resolve env st.resolver now ev.did = (none, r') →
      (processEvent env st now host raw ev time).hosts host = some (ev.seq, time)) ∧
    (∀ v r' pds, Resolver.resolve env st.resolver now ev.did = (some v, r') →
      v.endpoint = some pds → host ≠ pds →
      (processEvent env st now host raw ev time).hosts host = some (ev.seq, time)) := by
  refine ⟨?_, ?_, ?_⟩
  · intro v r' hres hep
    have hbase : processEvent env st now host raw ev time
        = ingestChecked env { st with resolver := r' } host ev time commit head v.key := by
      unfold processEvent
      simp only [hc]
      rw [if_neg (by simp [hv])]
      rw [hres]
      dsimp only
      rcases hep with h | h
      · rw [h]
      · rw [h]
        dsimp only
        rw [if_neg (by simp)]
    refine ⟨?_, ?_, ?_⟩
    · intro hsig
      have hko : sigRevOk env { st with resolver := r' } ev commit v.key = false := by
        rw [sigRevOk_resolver]
        unfold sigRevOk
        rcases hsig with h | h <;> rw [h]
      rw [hbase]
      unfold ingestChecked
      rw [hko]
      exact ⟨rfl, rfl, rfl⟩
    · intro prev hsig hkind hrepo hverify
      have hko : sigRevOk env { st with resolver := r' } ev commit v.key = false := by
        rw [sigRevOk_resolver]
        unfold sigRevOk
        rw [hsig]
        dsimp only
        rw [if_pos hkind, hrepo]
        exact hverify
      rw [hbase]
      unfold ingestChecked
      rw [hko]
      exact ⟨rfl, rfl, rfl⟩
    · intro hok
      rw [hbase]
      unfold ingestChecked
      rw [sigRevOk_resolver, hok]
      exact setHost_self _ _ _
  · intro r' hres
    unfold processEvent
    simp only [hc]
    rw [if_neg (by simp [hv])]
    rw [hres]
    exact setHost_self _ _ _
  · intro v r' pds hres hpds hne
    unfold processEvent
    simp only [hc]
    rw [if_neg (by simp [hv])]
    rw [hres]
    dsimp only
    rw [hpds]
    dsimp only
    rw [if_pos hne]
    exact setHost_self _ _ _

/-- A concrete commit descriptor for witnesses. -/
def c5c : CommitInfo where
  rev := "r"
  data := 1
  did := "did:web:x"

/-- A concrete `#commit` event bound to `c5c`. -/
def ev5 : Event where
  kind := SubKind.commit
  seq := 2
  time := 9
  did := "did:web:x"
  commitRes := CommitRes.commitOf c5c 4
  validates := true

/-- Witness for C5: with an unresolved identity the frame is queued and the
host record is updated to the (clamped) `(seq, time)`. -/
theorem c5_witness :
    (processEvent env4 st2 0 "h" 0 ev5 9).hosts "h" = some (2, 9) :=
  (c5_host_update_vs_drop env4 st2 0 "h" 0 ev5 9 c5c 4 rfl rfl).2.1
    (Resolver.request env4 st2.resolver 0 "did:web:x") rfl

theorem processQueueRec_queue (env : Env) (pds : Option String) (key : Nat)
    (s : MState) (kv : String × Nat) :
    (processQueueRec env pds key s kv).queue = s.queue := by
  unfold processQueueRec
  cases h : env.parse kv.2 with
  | none => rfl
  | some ev =>
    dsimp only
    cases hc : ev.commitRes with
    | err => rfl
    | noCommit => rfl
    | commitOf c hd =>
      dsimp only
      split
      · split
        · rfl
        · rfl
      · rfl

theorem foldl_processQueueRec_queue (env : Env) (pds : Option String) (key : Nat) :
    ∀ (recs : List (String × Nat)) (s : MState),
      (recs.foldl (processQueueRec env pds key) s).queue = s.queue := by
  intro recs
  induction recs with
  | nil => intro s; rfl
  | cons kv rest ih =>
    intro s
    rw [List.foldl_cons, ih, processQueueRec_queue]

/-- A resolver binding with no endpoint and key 0, for the C3 state. -/
def v3 : DidValue where
  endpoint := none
  key := 0

/-- An environment for C3 whose mirror resolves exactly the DID "d" and whose
parser fails every raw frame (the scan still iterates and removes keys). -/
def env3 : Env where
  cap := 1
  doPlcExport := false
  plcInterval := 0
  mirror := fun d => if d = "d" then some (some v3) else none
  decodeWeb := fun s => some s
  parseTime := fun _ => none
  parseDidDoc := fun _ => none
  lines := fun _ => []
  parsePlc := fun _ => none
  parse := fun _ => none
  sigOk := fun _ _ => none
  verifyCommitEvent := fun _ _ _ => false

/-- A manager state whose queue holds a record of DID "d" and a record of the
distinct DID "dd" (whose key begins with "d" but not with "d>"). -/
def st3 : MState where
  hosts := fun _ => none
  repos := fun _ => none
  firehose := []
  queue := [("d>h>1", 1), ("dd>h>1", 2)]
  cursor := 0
  resolver := r0

/-- Counterexample for C3 as stated: `scan_did("d")` iterates the byte prefix
"d", not "d>": the queue record keyed "dd>h>1" — a record of the different DID
"dd", whose key does not begin with "d>" — is also removed (the final queue is
empty where the claim predicts the "dd>h>1" record survives). -/
theorem c3_counterexample :
    (scanDid env3 st3 0 "d").queue = [] ∧
    strStarts "dd>h>1" "d" = true ∧ strStarts "dd>h>1" ("d" ++ ">") = false := by
  refine ⟨by decide, by decide, by decide⟩

/-- C3 amended: `scan_did(did)` iterates exactly the queue records whose key
begins with the DID string itself (so records of any DID having `did` as a
strict prefix are captured too), in the key order the store serves; every
iterated key is removed in the single batch committed at the end (conjunct 1:
the final queue is exactly the non-matching records, whatever each record's
checks did); and each record failing the endpoint, signature, or revision
check is dropped alone, leaving the state unchanged so the remaining records
are still processed (conjuncts 2 and 3). -/
theorem c3_scan_amended (env : Env) (st : MState) (now : Nat) (did : String)
    (v : DidValue) (r' : Resolver)
    (hres : Resolver.resolve env st.resolver now did = (some v, r')) :
    (scanDid env st now did).queue
        = st.queue.filter (fun kv => ! strStarts kv.1 did) ∧
    (∀ s kv ev commit head, env.parse kv.2 = some ev →
      ev.commitRes = CommitRes.commitOf commit head →
      (endpointOk v.endpoint (hostOfKey kv.1) = false ∨
        sigRevOk env s ev commit v.key = false) →
      processQueueRec env v.endpoint v.key s kv = s) ∧
    (∀ s kv ev commit head, env.parse kv.2 = some ev →
      ev.commitRes = CommitRes.commitOf commit head →
      endpointOk v.endpoint (hostOfKey kv.1) = true →
      sigRevOk env s ev commit v.key = true →
      processQueueRec env v.endpoint v.key s kv = admitScan s ev commit head) := by
  refine ⟨?_, ?_, ?_⟩
  · unfold scanDid
    rw [hres]
    dsimp only
    rw [foldl_processQueueRec_queue]
  · intro s kv ev commit head hparse hcr hfail
    unfold processQueueRec
    rw [hparse]
    dsimp only
    rw [hcr]
    dsimp only
    rcases hfail with h | h
    · rw [h]
      rfl
    · split
      · rw [h]
        rfl
      · rfl
  · intro s kv ev commit head hparse hcr hep hok
    unfold processQueueRec
    rw [hparse]
    dsimp only
    rw [hcr]
    dsimp only
    rw [hep, hok]
    rfl

/-- Witness for C3 (amended): on the concrete state `st3`, scanning DID "d"
leaves an empty queue — both matching keys removed in the end-of-scan batch. -/
theorem c3_witness : (scanDid env3 st3 0 "d").queue = [] := by
  have h := (c3_scan_amended env3 st3 0 "d" v3
    { r0 with cache := [("d", v3)] } (by decide)).1
  rw [h]
  decide

/-- The firehose-log invariant of a validator state: the cursor counts the
inserted records, the keys are exactly 1, 2, ..., n in order, and each record's
key is one more than the cursor embedded in its frame (the post-incremented
counter versus the returned pre-increment value). -/
def FireInv (st : MState) : Prop :=
  st.cursor = st.firehose.length ∧
  st.firehose.map Prod.fst = List.range' 1 st.firehose.length ∧
  ∀ p ∈ st.firehose, p.1 = p.2.cursor + 1

theorem fireInv_of_eq (st st' : MState)
    (hc : st'.cursor = st.cursor) (hf : st'.firehose = st.firehose)
    (h : FireInv st) : FireInv st' := by
  obtain ⟨h1, h2, h3⟩ := h
  exact ⟨by rw [hc, hf, h1], by rw [hf, h2], by rw [hf]; exact h3⟩

theorem range'_concat_one : ∀ (n s : Nat), List.range' s (n + 1) = List.range' s n ++ [s + n] := by
  intro n
  induction n with
  | zero => intro s; simp [List.range']
  | succ m ih =>
    intro s
    have hx : s + 1 + m = s + (m + 1) := by omega
    rw [List.range'_succ, ih (s + 1), hx, List.range'_succ]
    simp

theorem fireInv_insert (st : MState) (ev : Event) (st' : MState)
    (hc : st'.cursor = st.cursor + 1)
    (hf : st'.firehose = st.firehose ++ [(st.cursor + 1, Frame.mk st.cursor ev)])
    (hInv : FireInv st) : FireInv st' := by
  obtain ⟨h1, h2, h3⟩ := hInv
  refine ⟨?_, ?_, ?_⟩
  · rw [hc, hf, List.length_append, h1]
    simp
  · rw [hf, List.map_append, h2, List.length_append, h1]
    simp only [List.map_cons, List.map_nil, List.length_cons, List.length_nil]
    rw [range'_concat_one st.firehose.length 1]
    have hx : st.firehose.length + 1 = 1 + st.firehose.length := by omega
    rw [hx]
  · rw [hf]
    intro p hp
    rcases List.mem_append.mp hp with h | h
    · exact h3 p h
    · have hp' : p = (st.cursor + 1, Frame.mk st.cursor ev) := by
        simpa using h
      rw [hp']

theorem fireInv_admitIngest (env : Env) (st : MState) (host : String) (ev : Event)
    (time : Int) (commit : CommitInfo) (head : Nat)
    (h : FireInv st) : FireInv (admitIngest st host ev time commit head) :=
  fireInv_insert st ev _ rfl rfl h

theorem fireInv_admitScan (st : MState) (ev : Event) (commit : CommitInfo) (head : Nat)
    (h : FireInv st) : FireInv (admitScan st ev commit head) :=
  fireInv_insert st ev _ rfl rfl h

theorem fireInv_ingestChecked (env : Env) (st : MState) (host : String) (ev : Event)
    (time : Int) (commit : CommitInfo) (head : Nat) (key : Nat)
    (h : FireInv st) : FireInv (ingestChecked env st host ev time commit head key) := by
  unfold ingestChecked
  split
  · exact fireInv_admitIngest env st host ev time commit head h
  · exact h

theorem fireInv_processEvent (env : Env) (st : MState) (now : Nat) (host : String)
    (raw : Nat) (ev : Event) (time : Int)
    (h : FireInv st) : FireInv (processEvent env st now host raw ev time) := by
  unfold processEvent
  cases hc : ev.commitRes with
  | err => exact h
  | noCommit =>
    dsimp only
    split
    · exact fireInv_insert st ev _ rfl rfl h
    · exact fireInv_insert st ev _ rfl rfl h
  | commitOf commit head =>
    dsimp only
    split
    · exact h
    · cases hres : Resolver.resolve env st.resolver now ev.did with
      | mk o r' =>
        cases o with
        | none => exact fireInv_of_eq st _ rfl rfl h
        | some v =>
          dsimp only
          cases hpds : v.endpoint with
          | some pds =>
            dsimp only
            split
            · exact fireInv_of_eq st _ rfl rfl h
            · exact fireInv_ingestChecked env _ host ev time commit head v.key
                (fireInv_of_eq st _ rfl rfl h)
          | none =>
            dsimp only
            exact fireInv_ingestChecked env _ host ev time commit head v.key
              (fireInv_of_eq st _ rfl rfl h)

theorem fireInv_ingestOne (env : Env) (st : MState) (now : Nat) (host : String)
    (raw : Nat) (h : FireInv st) : FireInv (ingestOne env st now host raw) := by
  unfold ingestOne
  cases hp : env.parse raw with
  | none => exact h
  | some ev =>
    dsimp only
    cases hh : st.hosts host with
    | some pt =>
      dsimp only
      split
      · exact h
      · exact fireInv_processEvent env st now host raw ev _ h
    | none => exact fireInv_processEvent env st now host raw ev _ h

theorem fireInv_processQueueRec (env : Env) (pds : Option String) (key : Nat)
    (s : MState) (kv : String × Nat) (h : FireInv s) :
    FireInv (processQueueRec env pds key s kv) := by
  unfold processQueueRec
  cases hp : env.parse kv.2 with
  | none => exact h
  | some ev =>
    dsimp only
    cases hc : ev.commitRes with
    | err => exact h
    | noCommit => exact h
    | commitOf commit head =>
      dsimp only
      split
      · split
        · exact fireInv_admitScan s ev commit head h
        · exact h
      · exact h

theorem fireInv_foldl_processQueueRec (env : Env) (pds : Option String) (key : Nat) :
    ∀ (recs : List (String × Nat)) (s : MState), FireInv s →
      FireInv (recs.foldl (processQueueRec env pds key) s) := by
  intro recs
  induction recs with
  | nil => intro s h; exact h
  | cons kv rest ih =>
    intro s h
    rw [List.foldl_cons]
    exact ih _ (fireInv_processQueueRec env pds key s kv h)

theorem fireInv_scanDid (env : Env) (st : MState) (now : Nat) (did : String)
    (h : FireInv st) : FireInv (scanDid env st now did) := by
  unfold scanDid
  cases hres : Resolver.resolve env st.resolver now did with
  | mk o r' =>
    cases o with
    | none => exact fireInv_of_eq st _ rfl rfl h
    | some v =>
      dsimp only
      have h1 : FireInv ((st.queue.filter (fun kv => strStarts kv.1 did)).foldl
          (processQueueRec env v.endpoint v.key) { st with resolver := r' }) :=
        fireInv_foldl_processQueueRec env v.endpoint v.key _ _
          (fireInv_of_eq st _ rfl rfl h)
      exact fireInv_of_eq _ _ rfl rfl h1

theorem fireInv_foldl_scanDid (env : Env) (now : Nat) :
    ∀ (dids : List String) (s : MState), FireInv s →
      FireInv (dids.foldl (fun s d => scanDid env s now d) s) := by
  intro dids
  induction dids with
  | nil => intro s h; exact h
  | cons d rest ih =>
    intro s h
    rw [List.foldl_cons]
    exact ih _ (fireInv_scanDid env s now d h)

theorem fireInv_mStep (env : Env) (st : MState) (inp : MInput)
    (h : FireInv st) : FireInv (mStep env st inp) := by
  cases inp with
  | msg now host raw => exact fireInv_ingestOne env st now host raw h
  | scan now did => exact fireInv_scanDid env st now did h
  | pollRes now completed =>
    exact fireInv_foldl_scanDid env now _ _ (fireInv_of_eq st _ rfl rfl h)

theorem fireInv_mRun (env : Env) :
    ∀ (inputs : List MInput) (st0 : MState), FireInv st0 →
      FireInv (mRun env st0 inputs) := by
  intro inputs
  induction inputs with
  | nil => intro st0 h; exact h
  | cons inp rest ih =>
    intro st0 h
    show FireInv ((inp :: rest).foldl (mStep env) st0)
    rw [List.foldl_cons]
    exact ih _ (fireInv_mStep env st0 inp h)

/-- The fresh-start manager state: empty firehose, cursor 0 (the source
initializes the cursor from the last firehose key, `Cursor::default` when the
log is empty), empty tables. -/
def stInit : MState where
  hosts := fun _ => none
  repos := fun _ => none
  firehose := []
  queue := []
  cursor := 0
  resolver := r0

/-- Counterexample for C1 as stated: with `Cursor::next` modelled on the
spec's own words ("returns its current value and post-increments"), admitting
one event inserts the firehose record under key 1 while the serialized frame
embeds cursor 0 — the inserted key does not equal the embedded cursor. -/
theorem c1_counterexample :
    ¬ (∀ p ∈ (mRun env2 stInit [MInput.msg 0 "h" 0]).firehose, p.1 = p.2.cursor) := by
  decide

/-- C1 amended: over any run from a fresh start, the sequence of inserted
firehose keys is dense starting from 1 and strictly increasing (the keys are
exactly 1, 2, ..., n in insertion order: `Cursor::next` is advanced exactly
once per admission and no value is reused), and each record's key equals the
cursor embedded in its frame plus one (the post-incremented counter; under an
increment-then-return reading of `next()` the two coincide). -/
theorem c1_cursor_log_amended (env : Env) (st0 : MState) (inputs : List MInput)
    (h0 : st0.firehose = []) (hc0 : st0.cursor = 0) :
    (mRun env st0 inputs).firehose.map Prod.fst
        = List.range' 1 (mRun env st0 inputs).firehose.length ∧
    ∀ p ∈ (mRun env st0 inputs).firehose, p.1 = p.2.cursor + 1 := by
  have hinit : FireInv st0 := by
    refine ⟨?_, ?_, ?_⟩
    · rw [h0, hc0]
      rfl
    · rw [h0]
      rfl
    · rw [h0]
      intro p hp
      cases hp
  have h := fireInv_mRun env inputs st0 hinit
  exact ⟨h.2.1, h.2.2⟩

/-- Witness for C1 (amended): the one-admission run inserts exactly key 1. -/
theorem c1_witness :
    (mRun env2 stInit [MInput.msg 0 "h" 0]).firehose.map Prod.fst = [1] := by
  have h := (c1_cursor_log_amended env2 stInit [MInput.msg 0 "h" 0] rfl rfl).1
  rw [h]
  decide

/-- The `after` cursor after ingesting a list of parsed rows, starting from a
given cursor: each row advances it to that row's `created_at`. -/
def afterOf : List PlcDoc → Option String → Option String
  | [], a => a
  | d :: rest, _ => afterOf rest (some d.created_at)

theorem afterOf_some : ∀ (docs : List PlcDoc) (a : String),
    ∃ x, afterOf docs (some a) = some x := by
  intro docs
  induction docs with
  | nil => intro a; exact ⟨a, rfl⟩
  | cons d rest ih => intro a; exact ih d.created_at

theorem afterOf_getLast : ∀ (docs : List PlcDoc) (a0 : Option String) (dl : PlcDoc),
    docs.getLast? = some dl → afterOf docs a0 = some dl.created_at := by
  intro docs
  induction docs with
  | nil => intro a0 dl h; cases h
  | cons d rest ih =>
    intro a0 dl h
    cases rest with
    | nil =>
      simp only [List.getLast?_singleton, Option.some.injEq] at h
      rw [← h]
      rfl
    | cons d2 rest2 =>
      rw [List.getLast?_cons_cons] at h
      exact ih (some d.created_at) dl h

theorem not_mem_removeS (l : List String) (d : String) : d ∉ removeS l d := by
  intro h
  have := List.mem_filter.mp h
  simp at this

theorem mem_removeS_of_ne (l : List String) (d x : String) (hx : x ∈ l) (hne : x ≠ d) :
    x ∈ removeS l d := by
  refine List.mem_filter.mpr ⟨hx, ?_⟩
  simpa using hne

theorem exportStep_mirrorOps (env : Env) (acc : List String × Resolver) (l : String) :
    (exportStep env acc l).2.mirrorOps
      = acc.2.mirrorOps ++ (match env.parsePlc l with
          | some doc => [doc]
          | none => []) := by
  unfold exportStep
  cases hp : env.parsePlc l with
  | none => simp
  | some doc =>
    dsimp only
    split
    · rfl
    · rfl

theorem exportStep_after (env : Env) (acc : List String × Resolver) (l : String) :
    (exportStep env acc l).2.after
      = (match env.parsePlc l with
          | some doc => some doc.created_at
          | none => acc.2.after) := by
  unfold exportStep
  cases hp : env.parsePlc l with
  | none => rfl
  | some doc =>
    dsimp only
    split
    · rfl
    · rfl

theorem exportStep_inflight_cases (env : Env) (acc : List String × Resolver) (l : String) :
    (exportStep env acc l).2.inflight = acc.2.inflight ∨
    ∃ doc, env.parsePlc l = some doc ∧
      (exportStep env acc l).2.inflight = removeS acc.2.inflight doc.did := by
  unfold exportStep
  cases hp : env.parsePlc l with
  | none => exact Or.inl rfl
  | some doc =>
    dsimp only
    split
    · exact Or.inr ⟨doc, rfl, rfl⟩
    · exact Or.inl rfl

theorem exportStep_dids_mono (env : Env) (acc : List String × Resolver) (l : String)
    (d : String) (h : d ∈ acc.1) : d ∈ (exportStep env acc l).1 := by
  unfold exportStep
  cases hp : env.parsePlc l with
  | none => exact h
  | some doc =>
    dsimp only
    split
    · exact List.mem_append_left _ h
    · exact h

theorem exportFold_mirrorOps (env : Env) :
    ∀ (lns : List String) (acc : List String × Resolver),
      ((lns.foldl (exportStep env) acc).2).mirrorOps
        = acc.2.mirrorOps ++ lns.filterMap env.parsePlc := by
  intro lns
  induction lns with
  | nil => intro acc; simp
  | cons l rest ih =>
    intro acc
    rw [List.foldl_cons, ih, exportStep_mirrorOps]
    cases hp : env.parsePlc l with
    | none => simp [List.filterMap_cons, hp]
    | some doc => simp [List.filterMap_cons, hp]

theorem exportFold_after (env : Env) :
    ∀ (lns : List String) (acc : List String × Resolver),
      ((lns.foldl (exportStep env) acc).2).after
        = afterOf (lns.filterMap env.parsePlc) acc.2.after := by
  intro lns
  induction lns with
  | nil => intro acc; rfl
  | cons l rest ih =>
    intro acc
    rw [List.foldl_cons, ih, exportStep_after]
    cases hp : env.parsePlc l with
    | none => simp [List.filterMap_cons, hp]
    | some doc =>
      simp only [List.filterMap_cons, hp]
      rfl

theorem exportFold_dids_mono (env : Env) :
    ∀ (lns : List String) (acc : List String × Resolver) (d : String),
      d ∈ acc.1 → d ∈ (lns.foldl (exportStep env) acc).1 := by
  intro lns
  induction lns with
  | nil => intro acc d h; exact h
  | cons l rest ih =>
    intro acc d h
    rw [List.foldl_cons]
    exact ih _ d (exportStep_dids_mono env acc l d h)

theorem exportFold_inflight_mono (env : Env) :
    ∀ (lns : List String) (acc : List String × Resolver) (d : String),
      d ∉ acc.2.inflight → d ∉ (lns.foldl (exportStep env) acc).2.inflight := by
  intro lns
  induction lns with
  | nil => intro acc d h; exact h
  | cons l rest ih =>
    intro acc d h
    rw [List.foldl_cons]
    refine ih _ d ?_
    rcases exportStep_inflight_cases env acc l with he | ⟨doc, _, he⟩
    · rw [he]; exact h
    · rw [he]
      intro hmem
      exact h (List.mem_filter.mp hmem).1

theorem exportFold_batch_removed (env : Env) :
    ∀ (lns : List String) (acc : List String × Resolver) (d : String),
      d ∈ (lns.filterMap env.parsePlc).map PlcDoc.did →
      d ∉ (lns.foldl (exportStep env) acc).2.inflight := by
  intro lns
  induction lns with
  | nil => intro acc d h; simp at h
  | cons l rest ih =>
    intro acc d h
    rw [List.foldl_cons]
    cases hp : env.parsePlc l with
    | none =>
      simp only [List.filterMap_cons, hp] at h
      exact ih _ d h
    | some doc =>
      simp only [List.filterMap_cons, hp, List.map_cons, List.mem_cons] at h
      by_cases hr : d ∈ (rest.filterMap env.parsePlc).map PlcDoc.did
      · exact ih _ d hr
      · have hd : d = doc.did := by
          rcases h with h | h
          · exact h
          · exact absurd h hr
        refine exportFold_inflight_mono env rest _ d ?_
        unfold exportStep
        rw [hp]
        dsimp only
        split
        · rw [hd]
          exact not_mem_removeS _ _
        · rename_i hnot
          rw [hd]
          exact hnot

theorem exportStep_remove_char (env : Env) (acc : List String × Resolver) (l : String)
    (d : String) (hin : d ∈ acc.2.inflight)
    (hout : d ∉ (exportStep env acc l).2.inflight) :
    ∃ doc, env.parsePlc l = some doc ∧ d = doc.did ∧ d ∈ (exportStep env acc l).1 := by
  unfold exportStep at hout ⊢
  cases hp : env.parsePlc l with
  | none =>
    rw [hp] at hout
    exact absurd hin hout
  | some doc =>
    rw [hp] at hout
    dsimp only at hout ⊢
    by_cases hmem : doc.did ∈ acc.2.inflight
    · rw [if_pos hmem] at hout ⊢
      by_cases hd : d = doc.did
      · exact ⟨doc, rfl, hd, List.mem_append_right _ (by rw [hd]; exact List.mem_singleton.mpr rfl)⟩
      · exact absurd (mem_removeS_of_ne _ _ _ hin hd) hout
    · rw [if_neg hmem] at hout
      exact absurd hin hout

theorem exportFold_removed_in_dids (env : Env) :
    ∀ (lns : List String) (acc : List String × Resolver) (d : String),
      d ∈ acc.2.inflight → d ∉ (lns.foldl (exportStep env) acc).2.inflight →
      d ∈ (lns.foldl (exportStep env) acc).1 := by
  intro lns
  induction lns with
  | nil => intro acc d hin hout; exact absurd hin hout
  | cons l rest ih =>
    intro acc d hin hout
    rw [List.foldl_cons] at hout ⊢
    by_cases hstep : d ∈ (exportStep env acc l).2.inflight
    · exact ih _ d hstep hout
    · obtain ⟨doc, _, _, hdids⟩ := exportStep_remove_char env acc l d hin hstep
      exact exportFold_dids_mono env rest _ d hdids

theorem exportFold_remove_only (env : Env) :
    ∀ (lns : List String) (acc : List String × Resolver) (d : String),
      d ∈ acc.2.inflight → d ∉ (lns.foldl (exportStep env) acc).2.inflight →
      d ∈ (lns.filterMap env.parsePlc).map PlcDoc.did := by
  intro lns
  induction lns with
  | nil => intro acc d hin hout; exact absurd hin hout
  | cons l rest ih =>
    intro acc d hin hout
    rw [List.foldl_cons] at hout
    by_cases hstep : d ∈ (exportStep env acc l).2.inflight
    · have hr := ih _ d hstep hout
      cases hp : env.parsePlc l with
      | none => simpa [List.filterMap_cons, hp] using hr
      | some doc =>
        simp only [List.filterMap_cons, hp, List.map_cons, List.mem_cons]
        exact Or.inr hr
    · obtain ⟨doc, hp, hd, _⟩ := exportStep_remove_char env acc l d hin hstep
      simp only [List.filterMap_cons, hp, List.map_cons, List.mem_cons]
      exact Or.inl hd

theorem exportFold_futures (env : Env) :
    ∀ (lns : List String) (acc : List String × Resolver),
      ((lns.foldl (exportStep env) acc).2).futures = acc.2.futures := by
  intro lns
  induction lns with
  | nil => intro acc; rfl
  | cons l rest ih =>
    intro acc
    rw [List.foldl_cons, ih]
    unfold exportStep
    cases hp : env.parsePlc l with
    | none => rfl
    | some doc =>
      dsimp only
      split
      · rfl
      · rfl

theorem exportFold_inflight_subset (env : Env) :
    ∀ (lns : List String) (acc : List String × Resolver) (d : String),
      d ∈ (lns.foldl (exportStep env) acc).2.inflight → d ∈ acc.2.inflight := by
  intro lns acc d h
  by_contra hnot
  exact exportFold_inflight_mono env lns acc d hnot h

theorem send_req_export (r : Resolver) (now : Nat) (x : String) (h : r.after = some x) :
    Resolver.send_req r now none none
      = { r with after := none, last := now, futures := r.futures ++ [Query.plcExport x] } := by
  unfold Resolver.send_req
  rw [h]

/-- C7: completing a PLC export batch inserts exactly the parsed rows into
`plc_operations` in one transaction; when the batch is short of the full page
the `after` cursor ends at the last parsed row's `created_at`, and when the
batch is the full 1000 lines the next export request is issued immediately,
carrying that advanced cursor (which `send_req` consumes, leaving `after`
empty); every batch DID that was inflight is removed from inflight and appears
in the returned vector; and on a short page every remaining inflight did:plc
DID is drained into the returned vector as well. -/
theorem c7_poll_export (env : Env) (r : Resolver) (now : Nat) (a : String) (bytes : Nat) :
    (Resolver.poll env r now (some (Query.plcExport a, some bytes))).2.mirrorOps
        = r.mirrorOps ++ (env.lines bytes).filterMap env.parsePlc ∧
    ((env.lines bytes).length ≠ 1000 → ∀ dl,
      ((env.lines bytes).filterMap env.parsePlc).getLast? = some dl →
      (Resolver.poll env r now (some (Query.plcExport a, some bytes))).2.after
        = some dl.created_at) ∧
    ((env.lines bytes).length = 1000 → ∀ dl,
      ((env.lines bytes).filterMap env.parsePlc).getLast? = some dl →
      (Resolver.poll env r now (some (Query.plcExport a, some bytes))).2.futures
          = r.futures ++ [Query.plcExport dl.created_at] ∧
      (Resolver.poll env r now (some (Query.plcExport a, some bytes))).2.after = none) ∧
    (∀ d, d ∈ ((env.lines bytes).filterMap env.parsePlc).map PlcDoc.did → d ∈ r.inflight →
      d ∉ (Resolver.poll env r now (some (Query.plcExport a, some bytes))).2.inflight ∧
      d ∈ (Resolver.poll env r now (some (Query.plcExport a, some bytes))).1) ∧
    ((env.lines bytes).length ≠ 1000 →
      ∀ d, d ∈ r.inflight → strStarts d "did:plc:" = true →
        d ∉ (Resolver.poll env r now (some (Query.plcExport a, some bytes))).2.inflight ∧
        d ∈ (Resolver.poll env r now (some (Query.plcExport a, some bytes))).1) := by
  have hPeq : Resolver.poll env r now (some (Query.plcExport a, some bytes))
      = if (env.lines bytes).length = 1000
        then (((env.lines bytes).foldl (exportStep env) ([], { r with after := some a })).1,
              ((env.lines bytes).foldl (exportStep env) ([], { r with after := some a })).2.send_req
                now none none)
        else (((env.lines bytes).foldl (exportStep env) ([], { r with after := some a })).1
                ++ ((env.lines bytes).foldl (exportStep env)
                      ([], { r with after := some a })).2.inflight.filter
                      (fun d => strStarts d "did:plc:"),
              { ((env.lines bytes).foldl (exportStep env) ([], { r with after := some a })).2 with
                inflight := ((env.lines bytes).foldl (exportStep env)
                    ([], { r with after := some a })).2.inflight.filter
                    (fun d => ! strStarts d "did:plc:") }) := rfl
  have hops := exportFold_mirrorOps env (env.lines bytes) ([], { r with after := some a })
  have haft := exportFold_after env (env.lines bytes) ([], { r with after := some a })
  have hfut := exportFold_futures env (env.lines bytes) ([], { r with after := some a })
  refine ⟨?_, ?_, ?_, ?_, ?_⟩
  · rw [hPeq]
    by_cases hlen : (env.lines bytes).length = 1000
    · rw [if_pos hlen]
      show (Resolver.send_req _ now none none).mirrorOps = _
      have hsm : ∀ (r' : Resolver), (Resolver.send_req r' now none none).mirrorOps
          = r'.mirrorOps := by
        intro r'
        unfold Resolver.send_req
        cases h : r'.after <;> rfl
      rw [hsm, hops]
    · rw [if_neg hlen]
      exact hops
  · intro hlen dl hdl
    rw [hPeq, if_neg hlen]
    show ((env.lines bytes).foldl (exportStep env) ([], { r with after := some a })).2.after = _
    rw [haft]
    exact afterOf_getLast _ _ dl hdl
  · intro hlen dl hdl
    rw [hPeq, if_pos hlen]
    have hx : ((env.lines bytes).foldl (exportStep env)
        ([], { r with after := some a })).2.after = some dl.created_at := by
      rw [haft]
      exact afterOf_getLast _ _ dl hdl
    rw [send_req_export _ now dl.created_at hx]
    exact ⟨by rw [hfut], rfl⟩
  · intro d hd hin
    have hnotin : d ∉ ((env.lines bytes).foldl (exportStep env)
        ([], { r with after := some a })).2.inflight :=
      exportFold_batch_removed env (env.lines bytes) _ d hd
    have hdids : d ∈ ((env.lines bytes).foldl (exportStep env)
        ([], { r with after := some a })).1 :=
      exportFold_removed_in_dids env (env.lines bytes) _ d hin hnotin
    rw [hPeq]
    by_cases hlen : (env.lines bytes).length = 1000
    · rw [if_pos hlen]
      constructor
      · show d ∉ (Resolver.send_req _ now none none).inflight
        rw [send_req_inflight]
        exact hnotin
      · exact hdids
    · rw [if_neg hlen]
      constructor
      · intro hmem
        exact hnotin (List.mem_filter.mp hmem).1
      · exact List.mem_append_left _ hdids
  · intro hlen d hin hplc
    rw [hPeq, if_neg hlen]
    constructor
    · intro hmem
      have := (List.mem_filter.mp hmem).2
      rw [hplc] at this
      simp at this
    · by_cases hsurv : d ∈ ((env.lines bytes).foldl (exportStep env)
          ([], { r with after := some a })).2.inflight
      · refine List.mem_append_right _ ?_
        exact List.mem_filter.mpr ⟨hsurv, hplc⟩
      · refine List.mem_append_left _ ?_
        exact exportFold_removed_in_dids env (env.lines bytes) _ d hin hsurv

/-- A PLC row naming the did:web DID "did:web:bad" (an adversarial export row:
the ledger is not restricted in the code to did:plc DIDs). -/
def doc9 : PlcDoc where
  cid := "c"
  did := "did:web:bad"
  created_at := "t"
  nullified := false
  operation := 0

/-- An environment for C9: percent-decoding always fails, and the one export
line parses to `doc9`. -/
def env9 : Env where
  cap := 1
  doPlcExport := true
  plcInterval := 0
  mirror := fun _ => none
  decodeWeb := fun _ => none
  parseTime := fun _ => none
  parseDidDoc := fun _ => none
  lines := fun _ => ["L"]
  parsePlc := fun l => if l = "L" then some doc9 else none
  parse := fun _ => none
  sigOk := fun _ _ => none
  verifyCommitEvent := fun _ _ _ => false

/-- Counterexample for C9 as stated: `request("did:web:bad")` (whose
method-specific part fails percent-decoding) does insert the DID into inflight
and pushes no fetch — but a later operation can remove it from inflight: a
`poll` that ingests an export row whose `did` field is that very string
removes it, so "no later operation removes d from inflight" is false. -/
theorem c9_counterexample :
    ((Resolver.request env9 r0 0 "did:web:bad").inflight = ["did:web:bad"] ∧
     (Resolver.request env9 r0 0 "did:web:bad").futures = []) ∧
    "did:web:bad" ∉ (Resolver.poll env9 (Resolver.request env9 r0 0 "did:web:bad") 0
        (some (Query.plcExport "a", some 0))).2.inflight := by
  refine ⟨⟨by decide, by decide⟩, by decide⟩

/-- C9 amended: a did:web DID whose method-specific part fails percent-decoding
is inserted into inflight with no fetch pushed; while it is inflight, every
`resolve` returns `None` leaving the resolver untouched (so no new fetch is
issued); and the only way any `poll` removes it from inflight is a completed
response that names it — a DID-document response parsing to that DID, or an
export row carrying it as its `did` — which no fetch of this resolver's own
was issued for. -/
theorem c9_undecodable_web_inflight (env : Env) (r : Resolver) (now : Nat) (did : String) :
    (strStarts did "did:plc:" = false → strStarts did "did:web:" = true →
      env.decodeWeb (did.drop 8) = none →
      Resolver.request env r now did = { r with inflight := insertS r.inflight did }) ∧
    (did ∈ r.inflight → Resolver.resolve env r now did = (none, r)) ∧
    (did ∈ r.inflight → strStarts did "did:plc:" = false →
      ∀ completed, did ∉ (Resolver.poll env r now completed).2.inflight →
        (∃ q bytes v, completed = some (Query.did q, some bytes) ∧
          env.parseDidDoc bytes = some (did, v)) ∨
        (∃ a bytes, completed = some (Query.plcExport a, some bytes) ∧
          did ∈ ((env.lines bytes).filterMap env.parsePlc).map PlcDoc.did)) := by
  refine ⟨?_, ?_, ?_⟩
  · intro hplc hweb hdec
    unfold Resolver.request
    rw [hplc]
    simp only [Bool.false_eq_true, if_false]
    rw [hweb]
    simp only [if_true]
    rw [hdec]
  · intro hin
    unfold Resolver.resolve
    rw [if_pos hin]
  · intro hin hplc completed hout
    cases completed with
    | none =>
      exfalso
      refine hout ?_
      show did ∈ (if env.doPlcExport = true ∧ now - r.last > env.plcInterval
          then (([] : List String), r.send_req now none none) else ([], r)).2.inflight
      split
      · rw [send_req_inflight]
        exact hin
      · exact hin
    | some qres =>
      obtain ⟨q, res⟩ := qres
      cases res with
      | none =>
        exfalso
        cases q with
        | did qq => exact hout hin
        | plcExport aa => exact hout hin
      | some bytes =>
        cases q with
        | did qq =>
          left
          revert hout
          show did ∉ (match env.parseDidDoc bytes with
            | some (d, v) =>
              if qq ≠ d.drop 8 then (([] : List String), r)
              else ([d], { r with inflight := removeS r.inflight d,
                                  cache := lruPut env.cap r.cache d v })
            | none => ([], r)).2.inflight → _
          cases hp : env.parseDidDoc bytes with
          | none =>
            intro hout
            exact absurd hin hout
          | some dv =>
            obtain ⟨d, v⟩ := dv
            dsimp only
            by_cases hq : qq ≠ d.drop 8
            · rw [if_pos hq]
              intro hout
              exact absurd hin hout
            · rw [if_neg hq]
              intro hout
              by_cases hd : did = d
              · exact ⟨qq, bytes, v, rfl, by rw [hp, hd]⟩
              · exact absurd (mem_removeS_of_ne _ _ _ hin hd) hout
        | plcExport aa =>
          right
          refine ⟨aa, bytes, rfl, ?_⟩
          revert hout
          show did ∉ (if (env.lines bytes).length = 1000
              then (((env.lines bytes).foldl (exportStep env) ([], { r with after := some aa })).1,
                    ((env.lines bytes).foldl (exportStep env)
                        ([], { r with after := some aa })).2.send_req now none none)
              else (((env.lines bytes).foldl (exportStep env)
                        ([], { r with after := some aa })).1
                      ++ ((env.lines bytes).foldl (exportStep env)
                            ([], { r with after := some aa })).2.inflight.filter
                            (fun d => strStarts d "did:plc:"),
                    { ((env.lines bytes).foldl (exportStep env)
                          ([], { r with after := some aa })).2 with
                      inflight := ((env.lines bytes).foldl (exportStep env)
                          ([], { r with after := some aa })).2.inflight.filter
                          (fun d => ! strStarts d "did:plc:") })).2.inflight → _
          intro hout
          by_cases hsurv : did ∈ ((env.lines bytes).foldl (exportStep env)
              ([], { r with after := some aa })).2.inflight
          · exfalso
            refine hout ?_
            split
            · rw [send_req_inflight]
              exact hsurv
            · exact List.mem_filter.mpr ⟨hsurv, by rw [hplc]; rfl⟩
          · exact exportFold_remove_only env (env.lines bytes) _ did hin hsurv
